import Mathlib

/-!
Verification of the strategy-simulation engine of a backtesting program.

The program simulates three trading strategies (Buy & Hold, Moving-Average
Crossover, Volatility Take-Profit) over a daily close-price series, using
integer shares and proportional transaction costs, and reduces each
portfolio trajectory to summary statistics.

Shallow embedding: prices and cash are rationals (the source uses binary
floats; every claim checked here is about exact algebraic structure, not
rounding), share counts are integers (`math.floor` / `int(x // y)` become
`Int.floor`), the undefined first-bar return (NaN in the source) becomes
`Option.none`, and fallible entry points return `Except BtError`.
-/

deriving instance DecidableEq for Except

namespace Backtest

/-- Error taxonomy of the engine (the source raises `ValueError` with
distinguishing messages; the spec names the three classes). -/
inductive BtError where
  | insufficientData
  | invalidConfig
  | insufficientCapital
  deriving DecidableEq, Repr

/-- One trajectory row: date-free core columns
(price, shares, cash, portfolio_value). -/
structure Row where
  price : ℚ
  shares : ℤ
  cash : ℚ
  value : ℚ
  deriving DecidableEq, Repr

/-! ### Buy & Hold (`Backtester.run_buy_and_hold`) -/

/-- Embedding of `Backtester.run_buy_and_hold` after the data load: effective capital
net of the round-trip fee, integer shares at the first close, leftover
cash held constant, `portfolio_value = shares * price + cash` on every row. -/
def run_buy_and_hold (closes : List ℚ) (initialCapital transactionCostPct : ℚ) :
    Except BtError (List Row) :=
  match closes with
  | [] => .error .insufficientData
  | p0 :: _ =>
    let effectiveCapital := initialCapital * (1 - transactionCostPct)
    let shares := ⌊effectiveCapital / p0⌋
    if shares ≤ 0 then .error .insufficientCapital
    else
      let cash := effectiveCapital - shares * p0
      .ok (closes.map fun p => ⟨p, shares, cash, shares * p + cash⟩)

/-! ### Moving-Average Crossover (`Backtester.run_ma_crossover`) -/

/-- Simple rolling mean of the last `w` closes ending at index `i`
(pandas `rolling(window=w).mean()`): defined once `i + 1 ≥ w`. -/
def rollingMean (w : ℕ) (closes : List ℚ) (i : ℕ) : Option ℚ :=
  if w ≤ i + 1 then
    some ((((closes.take (i + 1)).drop (i + 1 - w)).foldr (· + ·) 0) / w)
  else none

/-- The `(price, signal)` pairs of the rows kept after
`dropna(subset=["short_ma", "long_ma"])`; `signal = short_ma > long_ma`. -/
def maSignals (shortWindow longWindow : ℕ) (closes : List ℚ) : List (ℚ × Bool) :=
  (List.range closes.length).filterMap fun i =>
    match rollingMean shortWindow closes i, rollingMean longWindow closes i with
    | some sma, some lma => some (closes.getD i 0, decide (lma < sma))
    | _, _ => none

/-- Walk-forward state of the MA crossover loop:
`cash`, `shares`, `position` (`true` = invested). -/
structure MAState where
  cash : ℚ
  shares : ℤ
  position : Bool
  deriving DecidableEq, Repr

/-- One iteration of the MA crossover loop body (the buy branch, the sell
branch, or no action). -/
def maStep (transactionCostPct : ℚ) (s : MAState) (price : ℚ) (signal : Bool) :
    MAState :=
  if signal ∧ ¬s.position then
    let fee := s.cash * transactionCostPct
    let tradableCash := s.cash - fee
    let newShares : ℤ := if 0 < tradableCash then ⌊tradableCash / price⌋ else 0
    let spend := newShares * price
    ⟨s.cash - fee - spend, newShares, true⟩
  else if ¬signal ∧ s.position then
    let tradeNotional := s.shares * price
    let fee := tradeNotional * transactionCostPct
    ⟨s.cash + tradeNotional - fee, 0, false⟩
  else s

/-- The rows appended by the MA crossover loop (post-step state;
`portfolio_value = cash + shares * price` at the end of the day). -/
def maRows (transactionCostPct : ℚ) (s : MAState) : List (ℚ × Bool) → List Row
  | [] => []
  | (p, sig) :: rest =>
    let s' := maStep transactionCostPct s p sig
    ⟨p, s'.shares, s'.cash, s'.cash + s'.shares * p⟩ ::
      maRows transactionCostPct s' rest

/-- The states reached by the MA crossover loop, one per processed bar. -/
def maStates (transactionCostPct : ℚ) (s : MAState) : List (ℚ × Bool) → List MAState
  | [] => []
  | (p, sig) :: rest =>
    let s' := maStep transactionCostPct s p sig
    s' :: maStates transactionCostPct s' rest

/-- Embedding of `Backtester.run_ma_crossover` after the data load: window-order check
already done by the caller wrapper, here the empty-data and
too-short-for-windows checks, then the walk-forward loop. -/
def maAfterLoad (shortWindow longWindow : ℕ) (closes : List ℚ)
    (initialCapital transactionCostPct : ℚ) : Except BtError (List Row) :=
  if closes.isEmpty then .error .insufficientData
  else
    let pairs := maSignals shortWindow longWindow closes
    if pairs.isEmpty then .error .insufficientData
    else .ok (maRows transactionCostPct ⟨initialCapital, 0, false⟩ pairs)

/-- The data-loader boundary: the series the loader would return for the
requested ticker and date range, plus a count of load calls performed. -/
structure LoaderCtx where
  series : List ℚ
  loads : ℕ
  deriving DecidableEq, Repr

/-- Embedding of `self.loader.load(ticker, start, end)`: returns the series and records
that a load happened. -/
def loadSeries (ctx : LoaderCtx) : List ℚ × LoaderCtx :=
  (ctx.series, { ctx with loads := ctx.loads + 1 })

/-- Embedding of `Backtester.run_ma_crossover`, full entry point: the window-order check
is performed first, before the data load. -/
def run_ma_crossover (shortWindow longWindow : ℕ)
    (initialCapital transactionCostPct : ℚ) (ctx : LoaderCtx) :
    Except BtError (List Row) × LoaderCtx :=
  if longWindow ≤ shortWindow then (.error .invalidConfig, ctx)
  else
    let (closes, ctx') := loadSeries ctx
    (maAfterLoad shortWindow longWindow closes initialCapital transactionCostPct,
     ctx')

/-! ### Volatility Take-Profit (`Backtester.run_volatility_tp`) -/

/-- Walk-forward state of the volatility take-profit loop:
`cash`, `shares`, `entry_price` (`none` when flat). -/
structure VState where
  cash : ℚ
  shares : ℤ
  entry : Option ℚ
  deriving DecidableEq, Repr

/-- One trajectory row of the volatility take-profit run (it also records
the `signal` column). -/
structure VRow where
  price : ℚ
  shares : ℤ
  cash : ℚ
  value : ℚ
  signal : Bool
  deriving DecidableEq, Repr

/-- Embedding of the `pct_change()` column: the first entry is undefined (NaN in the
source, `none` here), entry `i > 0` is `close(i)/close(i-1) - 1`. -/
def pctChangesFrom (prev : ℚ) : List ℚ → List (Option ℚ)
  | [] => []
  | p :: rest => some (p / prev - 1) :: pctChangesFrom p rest

/-- Daily simple returns column, headed by the undefined first value. -/
def pctChanges : List ℚ → List (Option ℚ)
  | [] => []
  | p :: rest => none :: pctChangesFrom p rest

/-- One iteration of the volatility take-profit loop body: default signal
from the held shares, the entry branch (flat, defined return, big absolute
move, positive integer share count), or the exit branch (invested with a
recorded entry price, take-profit or stop-loss hit). Returns the new state
and the recorded signal. -/
def volStep (volThreshold takeProfit : ℚ) (stopLoss : Option ℚ)
    (transactionCostPct : ℚ) (s : VState) (price : ℚ) (ret : Option ℚ) :
    VState × Bool :=
  let signal : Bool := decide (0 < s.shares)
  if s.shares = 0 then
    match ret with
    | none => (s, signal)
    | some r =>
      if volThreshold < |r| then
        let tradeCost := s.cash * transactionCostPct
        let investable := s.cash - tradeCost
        let newShares : ℤ := ⌊investable / price⌋
        if 0 < newShares then
          (⟨s.cash - tradeCost - newShares * price, newShares, some price⟩, true)
        else (s, signal)
      else (s, signal)
  else
    match s.entry with
    | some entryPrice =>
      if 0 < s.shares then
        let retSinceEntry := price / entryPrice - 1
        let hitTp : Bool := decide (takeProfit ≤ retSinceEntry)
        let hitSl : Bool := match stopLoss with
          | some sl => decide (retSinceEntry ≤ -sl)
          | none => false
        if hitTp || hitSl then
          let tradeValue := s.shares * price
          let tradeCost := tradeValue * transactionCostPct
          (⟨s.cash + tradeValue - tradeCost, 0, none⟩, false)
        else (s, signal)
      else (s, signal)
    | none => (s, signal)

/-- The day-by-day volatility take-profit loop: emits one row per bar
(`portfolio_value = cash + shares * price` after the bar's action) and
returns the final state alongside the rows. -/
def volLoop (volThreshold takeProfit : ℚ) (stopLoss : Option ℚ)
    (transactionCostPct : ℚ) (s : VState) :
    List (ℚ × Option ℚ) → List VRow × VState
  | [] => ([], s)
  | (p, r) :: rest =>
    let step := volStep volThreshold takeProfit stopLoss transactionCostPct s p r
    let next := volLoop volThreshold takeProfit stopLoss transactionCostPct
      step.1 rest
    (⟨p, step.1.shares, step.1.cash, step.1.cash + step.1.shares * p, step.2⟩ ::
      next.1, next.2)

/-- Embedding of the final overwrite `value_list[-1] = cash`: overwrite the `portfolio_value` of the last
row only, leaving every other field and row untouched. -/
def setLastValue : List VRow → ℚ → List VRow
  | [], _ => []
  | [r], v => [{ r with value := v }]
  | r :: r' :: rest, v => r :: setLastValue (r' :: rest) v

/-- Embedding of `Backtester.run_volatility_tp` after the data load: per-bar simulation
over `(price, ret)` pairs, then the forced end-of-series liquidation when
still holding, which rewrites only the final portfolio value. -/
def run_volatility_tp (closes : List ℚ) (initialCapital : ℚ)
    (volThreshold takeProfit : ℚ) (stopLoss : Option ℚ)
    (transactionCostPct : ℚ) : Except BtError (List VRow) :=
  if closes.isEmpty then .error .insufficientData
  else
    let bars := closes.zip (pctChanges closes)
    let sim := volLoop volThreshold takeProfit stopLoss transactionCostPct
      ⟨initialCapital, 0, none⟩ bars
    if 0 < sim.2.shares then
      let lastPrice := closes.getLastD 0
      let tradeValue := sim.2.shares * lastPrice
      let tradeCost := tradeValue * transactionCostPct
      .ok (setLastValue sim.1 (sim.2.cash + tradeValue - tradeCost))
    else .ok sim.1

/-! ### Performance metrics (`Backtester.summarize_performance`) -/

/-- Summary record returned by `summarize_performance`; the two annualized
statistics are `none` exactly where the source stores float NaN. -/
structure Summary where
  finalValue : ℚ
  totalReturn : ℚ
  annualizedReturn : Option ℝ
  annualizedVol : Option ℝ
  maxDrawdown : ℚ
  maxDrawdownDurationDays : ℕ

/-- Running maximum continuing from an already-reached maximum `m`. -/
def cummaxFrom (m : ℚ) : List ℚ → List ℚ
  | [] => []
  | v :: rest => max m v :: cummaxFrom (max m v) rest

/-- Running maximum `portfolio_value.cummax()`. -/
def cummax : List ℚ → List ℚ
  | [] => []
  | v :: rest => v :: cummaxFrom v rest

/-- Drawdown series `portfolio_value / cummax - 1`. -/
def drawdowns (l : List ℚ) : List ℚ :=
  (l.zip (cummax l)).map fun vm => vm.1 / vm.2 - 1

/-- The `durations` list built by the drawdown-duration loop: consecutive
strictly-negative drawdowns accumulate into `cur`, a non-negative drawdown
flushes a positive `cur`, and a trailing positive `cur` is flushed after
the loop. -/
def ddDurations : List ℚ → ℕ → List ℕ → List ℕ
  | [], cur, durs => if 0 < cur then durs ++ [cur] else durs
  | dd :: rest, cur, durs =>
    if dd < 0 then ddDurations rest (cur + 1) durs
    else ddDurations rest 0 (if 0 < cur then durs ++ [cur] else durs)

/-- Value `max(durations) if durations else 0` over the drawdown series. -/
def maxDrawdownDuration (dds : List ℚ) : ℕ :=
  (ddDurations dds 0 []).foldr max 0

/-- Embedding of `pct_change().dropna()` of the portfolio values, continuing from a
previous value. -/
def dailyReturnsFrom (prev : ℚ) : List ℚ → List ℚ
  | [] => []
  | v :: rest => (v / prev - 1) :: dailyReturnsFrom v rest

/-- Day-over-day simple returns of `portfolio_value`, the undefined first
entry dropped. -/
def dailyReturns : List ℚ → List ℚ
  | [] => []
  | v :: rest => dailyReturnsFrom v rest

/-- Sample variance (pandas `std()` uses `ddof=1`) of a list of returns. -/
def sampleVariance (l : List ℚ) : ℚ :=
  let n : ℚ := l.length
  let m := l.foldr (· + ·) 0 / n
  ((l.map fun r => (r - m) ^ 2).foldr (· + ·) 0) / (n - 1)

/-- Embedding of `n_days`: calendar days between the first and the last trajectory
date, or 0 for a trajectory with fewer than two rows. Dates are day
numbers, so the pandas `.days` difference is plain subtraction. -/
def nDays (traj : List (ℤ × ℚ)) : ℤ :=
  if 1 < traj.length then (traj.getLastD (0, 0)).1 - (traj.headD (0, 0)).1
  else 0

/-- Embedding of `Backtester.summarize_performance` on the `(date, portfolio_value)`
columns it reads: final value, total return, annualized return (NaN when
`n_days = 0`), annualized volatility (NaN with fewer than two return
observations), max drawdown, and max drawdown duration. -/
noncomputable def summarize_performance (traj : List (ℤ × ℚ))
    (initialCapital : ℚ) : Except BtError Summary :=
  if traj.isEmpty then .error .insufficientData
  else
    let vals := traj.map Prod.snd
    let finalValue := vals.getLastD 0
    let totalReturn := finalValue / initialCapital - 1
    let rets := dailyReturns vals
    let days := nDays traj
    let annualizedReturn : Option ℝ :=
      if 0 < days then
        some (Real.rpow (1 + (totalReturn : ℝ)) (252 / (days : ℝ)) - 1)
      else none
    let annualizedVol : Option ℝ :=
      if 1 < rets.length then
        some (Real.sqrt (sampleVariance rets : ℝ) * Real.sqrt 252)
      else none
    let dds := drawdowns vals
    let maxDrawdown := match dds with
      | [] => 0
      | d :: rest => rest.foldl min d
    .ok ⟨finalValue, totalReturn, annualizedReturn, annualizedVol,
      maxDrawdown, maxDrawdownDuration dds⟩

/-! ### The risk-adjusted score (`sharpe_like`)

The two places the score is computed work on floats whose values may be
NaN or infinite, so they are modelled over an IEEE-style value type. -/

/-- A float value: finite rational, positive/negative infinity, or NaN. -/
inductive FVal where
  | fin : ℚ → FVal
  | inf : FVal
  | neginf : FVal
  | nan : FVal
  deriving DecidableEq, Repr

/-- IEEE-754 division on `FVal` (the cases the score computations can
reach: finite/finite with the signed-zero-free rational model, NaN
propagation, and infinities). -/
def FVal.div : FVal → FVal → FVal
  | nan, _ => nan
  | _, nan => nan
  | fin a, fin b =>
    if b = 0 then (if a = 0 then nan else if 0 < a then inf else neginf)
    else fin (a / b)
  | fin _, inf => fin 0
  | fin _, neginf => fin 0
  | inf, fin b => if b < 0 then neginf else inf
  | neginf, fin b => if b < 0 then inf else neginf
  | _, _ => nan

/-- Embedding of `main.py`: `summary_df["sharpe_like"] = annualized_return /
annualized_vol` — the division is applied directly. -/
def sharpeLikeMain (annualizedReturn annualizedVol : FVal) : FVal :=
  FVal.div annualizedReturn annualizedVol

/-- Embedding of `experiment_runner.py`: `annualized_return / annualized_vol if
annualized_vol != 0 else float("nan")`. -/
def sharpeLikeRunner (annualizedReturn annualizedVol : FVal) : FVal :=
  if annualizedVol ≠ FVal.fin 0 then FVal.div annualizedReturn annualizedVol
  else FVal.nan

/-! ### Spec-side characterization of the drawdown-duration metric -/

/-- Spec-side predicate, following the spec's words for the
drawdown-duration metric: the list contains a run of `k` consecutive
entries that are all strictly negative. -/
def HasNegRun (l : List ℚ) (k : ℕ) : Prop :=
  ∃ pre mid suf, l = pre ++ mid ++ suf ∧ mid.length = k ∧ ∀ x ∈ mid, x < 0

/-- Length of the leading run of strictly negative entries (proof helper
for the drawdown-duration scan). -/
def leadNegRun : List ℚ → ℕ
  | [] => 0
  | x :: xs => if x < 0 then leadNegRun xs + 1 else 0

/-- Longest run of strictly negative entries, as a structural recursion
(proof helper, shown equal to the scan behind `maxDrawdownDuration`). -/
def longestNegRun : List ℚ → ℕ
  | [] => 0
  | x :: xs => max (if x < 0 then leadNegRun xs + 1 else 0) (longestNegRun xs)

/-! ## Lemmas about the volatility take-profit step -/

lemma volStep_flat_none (vt tp : ℚ) (sl : Option ℚ) (c : ℚ) (s : VState)
    (price : ℚ) (h : s.shares = 0) :
    volStep vt tp sl c s price none = (s, false) := by
  simp [volStep, h]

lemma volStep_flat_some (vt tp : ℚ) (sl : Option ℚ) (c : ℚ) (s : VState)
    (price r : ℚ) (h : s.shares = 0) :
    volStep vt tp sl c s price (some r) =
      if vt < |r| ∧ 0 < ⌊(s.cash - s.cash * c) / price⌋ then
        (⟨s.cash - s.cash * c - ⌊(s.cash - s.cash * c) / price⌋ * price,
          ⌊(s.cash - s.cash * c) / price⌋, some price⟩, true)
      else (s, false) := by
  simp only [volStep, h]
  split_ifs with h1 h2 h3 <;> simp_all [volStep]

/-! ## Claim C5 -/

/-- C5: In the Volatility Take-Profit simulator the first bar's daily
return is undefined (`none`, the source's NaN) and never triggers an
entry; a flat position enters on a bar exactly when the absolute daily
return strictly exceeds `vol_threshold` and the computed share count
`⌊(cash - cash*cost)/price⌋` is positive; when that computed share count
is 0 the position stays flat with no error, and a non-empty series always
yields a trajectory. -/
theorem C5_vol_entry_condition (vt tp : ℚ) (sl : Option ℚ) (c : ℚ) :
    (∀ p rest, pctChanges (p :: rest) = none :: pctChangesFrom p rest) ∧
    (∀ s price, s.shares = 0 → volStep vt tp sl c s price none = (s, false)) ∧
    (∀ s price r, s.shares = 0 →
      ((volStep vt tp sl c s price (some r)).1.shares ≠ 0 ↔
        vt < |r| ∧ 0 < ⌊(s.cash - s.cash * c) / price⌋)) ∧
    (∀ s price r, s.shares = 0 → ⌊(s.cash - s.cash * c) / price⌋ = 0 →
      volStep vt tp sl c s price (some r) = (s, false)) ∧
    (∀ closes cap, closes ≠ [] →
      ∃ rows, run_volatility_tp closes cap vt tp sl c = .ok rows) := by
  refine ⟨fun p rest => rfl, volStep_flat_none vt tp sl c, ?_, ?_, ?_⟩
  · intro s price r h
    rw [volStep_flat_some vt tp sl c s price r h]
    split_ifs with hc
    · exact ⟨fun _ => hc, fun _ => hc.2.ne'⟩
    · simpa [h] using hc
  · intro s price r h h0
    rw [volStep_flat_some vt tp sl c s price r h]
    simp [h0]
  · intro closes cap h
    simp only [run_volatility_tp, List.isEmpty_eq_true, h, if_false]
    split_ifs <;> exact ⟨_, rfl⟩

/-- Witness for C5 at a concrete flat state and first-bar return. -/
theorem C5_witness :
    volStep (1/20) (1/50) none (1/100) ⟨1000, 0, none⟩ 106 none =
      (⟨1000, 0, none⟩, false) :=
  (C5_vol_entry_condition (1/20) (1/50) none (1/100)).2.1 ⟨1000, 0, none⟩ 106 rfl

/-! ## Claim C10 -/

/-- C10: In the Volatility Take-Profit simulator an entry and an exit
never happen on the same bar: starting a bar flat, either the bar ends
flat with the state untouched (no round trip inside the bar), or the bar
ends invested with the entry recorded at this bar's price and the cash
reflecting only the purchase — the take-profit/stop-loss conditions are
not evaluated on the entry bar, whatever `take_profit` and `stop_loss`
are (even a non-positive `take_profit`, which the entry-bar return since
entry `0` would trigger, causes no same-bar exit). -/
theorem C10_no_same_bar_entry_and_exit (vt tp : ℚ) (sl : Option ℚ) (c : ℚ)
    (s : VState) (price : ℚ) (ret : Option ℚ) (h : s.shares = 0) :
    ((volStep vt tp sl c s price ret).1.shares = 0 →
      volStep vt tp sl c s price ret = (s, false)) ∧
    ((volStep vt tp sl c s price ret).1.shares ≠ 0 →
      (volStep vt tp sl c s price ret).1.entry = some price ∧
      (volStep vt tp sl c s price ret).1.shares =
        ⌊(s.cash - s.cash * c) / price⌋ ∧
      (volStep vt tp sl c s price ret).1.cash =
        s.cash - s.cash * c - ⌊(s.cash - s.cash * c) / price⌋ * price ∧
      (volStep vt tp sl c s price ret).2 = true) := by
  match ret with
  | none =>
    rw [volStep_flat_none vt tp sl c s price h]
    exact ⟨fun _ => rfl, fun hn => absurd h hn⟩
  | some r =>
    rw [volStep_flat_some vt tp sl c s price r h]
    split_ifs with hc
    · refine ⟨fun h0 => absurd h0 (by simpa using hc.2.ne'), fun _ => ?_⟩
      exact ⟨rfl, rfl, rfl, rfl⟩
    · exact ⟨fun _ => rfl, fun hn => absurd h hn⟩

/-- Witness for C10: a concrete entry bar with `take_profit = -1` (which
would trigger an immediate exit if evaluated on the entry bar) still ends
the bar invested at the bar's price. -/
theorem C10_witness :
    (volStep (1/20) (-1) none 0 ⟨1000, 0, none⟩ 106 (some (3/50))).1.entry =
      some 106 ∧
    (volStep (1/20) (-1) none 0 ⟨1000, 0, none⟩ 106 (some (3/50))).1.shares =
      ⌊((1000 : ℚ) - 1000 * 0) / 106⌋ ∧
    (volStep (1/20) (-1) none 0 ⟨1000, 0, none⟩ 106 (some (3/50))).1.cash =
      1000 - 1000 * 0 - ⌊((1000 : ℚ) - 1000 * 0) / 106⌋ * 106 ∧
    (volStep (1/20) (-1) none 0 ⟨1000, 0, none⟩ 106 (some (3/50))).2 = true :=
  (C10_no_same_bar_entry_and_exit (1/20) (-1) none 0 ⟨1000, 0, none⟩ 106
    (some (3/50)) rfl).2 (by norm_num [volStep, abs])

/-! ## Claim C9 -/

/-- C9: With `long_window ≤ short_window` the MA crossover entry point
fails with the invalid-configuration error before any price data is
loaded: the loader context comes back untouched (its load counter is not
incremented), for every series the loader would have served. -/
theorem C9_ma_invalid_config_before_load (shortWindow longWindow : ℕ)
    (cap cost : ℚ) (ctx : LoaderCtx) (h : longWindow ≤ shortWindow) :
    run_ma_crossover shortWindow longWindow cap cost ctx =
      (.error .invalidConfig, ctx) := by
  simp [run_ma_crossover, h]

/-- Witness for C9 at the defaults flipped (`short_window = 50`,
`long_window = 20`). -/
theorem C9_witness :
    run_ma_crossover 50 20 1000 0 ⟨[1, 2, 3], 0⟩ =
      (.error .invalidConfig, ⟨[1, 2, 3], 0⟩) :=
  C9_ma_invalid_config_before_load 50 20 1000 0 ⟨[1, 2, 3], 0⟩ (by norm_num)

/-! ## Claim C8 -/

/-- C8 counterexample: the claim says the score divides with no
divide-by-zero guard everywhere the score is computed, but the experiment
runner maps a zero annualized volatility to NaN instead of performing the
division (which would give +Inf for a positive numerator, as the
`main.py` computation does). -/
theorem C8_counterexample :
    sharpeLikeRunner (FVal.fin 1) (FVal.fin 0) = FVal.nan ∧
    sharpeLikeMain (FVal.fin 1) (FVal.fin 0) = FVal.inf ∧
    sharpeLikeRunner (FVal.fin 1) (FVal.fin 0) ≠
      sharpeLikeMain (FVal.fin 1) (FVal.fin 0) := by
  refine ⟨by simp [sharpeLikeRunner], ?_, ?_⟩
  · norm_num [sharpeLikeMain, FVal.div]
  · norm_num [sharpeLikeRunner, sharpeLikeMain, FVal.div]
    decide

/-- C8 amended: `main.py` computes the score as an unguarded division,
while `experiment_runner.py` guards it — away from a zero annualized
volatility it is the same division, and at zero it is the NaN sentinel. -/
theorem C8_amended_guard_split :
    (∀ r v, sharpeLikeMain r v = FVal.div r v) ∧
    (∀ r v, v ≠ FVal.fin 0 → sharpeLikeRunner r v = FVal.div r v) ∧
    (∀ r, sharpeLikeRunner r (FVal.fin 0) = FVal.nan) :=
  ⟨fun _ _ => rfl, fun r v h => by simp [sharpeLikeRunner, h],
   fun r => by simp [sharpeLikeRunner]⟩

/-- Witness for C8 at a nonzero volatility. -/
theorem C8_witness :
    sharpeLikeRunner (FVal.fin 1) (FVal.fin 2) =
      FVal.div (FVal.fin 1) (FVal.fin 2) :=
  C8_amended_guard_split.2.1 (FVal.fin 1) (FVal.fin 2) (by simp)


/-! ## Lemmas about the MA crossover step -/

lemma maStep_buy (c : ℚ) (s : MAState) (price : ℚ) (hpos : s.position = false) :
    maStep c s price true =
      ⟨s.cash - s.cash * c -
        (if 0 < s.cash - s.cash * c then ⌊(s.cash - s.cash * c) / price⌋
         else 0) * price,
       (if 0 < s.cash - s.cash * c then ⌊(s.cash - s.cash * c) / price⌋
        else 0), true⟩ := by
  simp [maStep, hpos]

lemma maStep_sell (c : ℚ) (s : MAState) (price : ℚ) (hpos : s.position = true) :
    maStep c s price false =
      ⟨s.cash + s.shares * price - s.shares * price * c, 0, false⟩ := by
  simp [maStep, hpos]

lemma maStep_hold (c : ℚ) (s : MAState) (price : ℚ) (sig : Bool)
    (h : sig = s.position) :
    maStep c s price sig = s := by
  subst h
  cases hp : s.position <;> simp [maStep, hp]

/-! ## Claim C2 -/

/-- C2 counterexample: an MA crossover run whose single entry computes a
zero integer share count (capital 5, entry price 100) returns a
trajectory — the buy branch continues with zero shares and the position
marked invested — instead of failing with the insufficient-capital
error. -/
theorem C2_counterexample :
    (run_ma_crossover 1 2 5 0 ⟨[10, 100], 0⟩).1 = .ok [⟨100, 0, 5, 5⟩] ∧
    ⌊((5 : ℚ) - 5 * 0) / 100⌋ = 0 := by
  constructor
  · norm_num [run_ma_crossover, loadSeries, maAfterLoad, maSignals,
      rollingMean, maRows, maStep, List.range_succ]
    simp
  · norm_num

/-- C2 amended: only Buy & Hold fails with the insufficient-capital error
when the entry share count is non-positive; the MA crossover buy branch
instead continues with zero shares (position marked invested, fee still
paid), and the volatility take-profit entry branch continues flat. -/
theorem C2_amended_zero_share_entry :
    (∀ (p0 : ℚ) (rest : List ℚ) (cap cost : ℚ),
      ⌊cap * (1 - cost) / p0⌋ ≤ 0 →
      run_buy_and_hold (p0 :: rest) cap cost = .error .insufficientCapital) ∧
    (∀ (cost : ℚ) (s : MAState) (price : ℚ), s.position = false →
      0 ≤ s.cash - s.cash * cost →
      ⌊(s.cash - s.cash * cost) / price⌋ = 0 →
      maStep cost s price true = ⟨s.cash - s.cash * cost, 0, true⟩) ∧
    (∀ (vt tp : ℚ) (sl : Option ℚ) (c : ℚ) (s : VState) (price r : ℚ),
      s.shares = 0 → ⌊(s.cash - s.cash * c) / price⌋ = 0 →
      volStep vt tp sl c s price (some r) = (s, false)) := by
  refine ⟨?_, ?_, ?_⟩
  · intro p0 rest cap cost h
    simp [run_buy_and_hold, h]
  · intro cost s price hpos htr h
    rw [maStep_buy cost s price hpos]
    have hif : (if 0 < s.cash - s.cash * cost
        then ⌊(s.cash - s.cash * cost) / price⌋ else 0) = 0 := by
      split_ifs with hlt
      · exact h
      · rfl
    rw [hif]
    simp
  · intro vt tp sl c s price r h h0
    rw [volStep_flat_some vt tp sl c s price r h]
    simp [h0]

/-- Witness for C2 (Scenario D of the spec): Buy & Hold with capital 5
and entry price 100 fails with the insufficient-capital error. -/
theorem C2_witness :
    run_buy_and_hold [100] 5 0 = .error .insufficientCapital :=
  C2_amended_zero_share_entry.1 100 [] 5 0 (by norm_num)

/-! ## Claim C3 -/

lemma maStep_nonneg (cost : ℚ) (_h0 : 0 ≤ cost) (h1 : cost ≤ 1) (s : MAState)
    (price : ℚ) (sig : Bool) (hp : 0 < price) (hc : 0 ≤ s.cash)
    (hs : 0 ≤ s.shares) :
    0 ≤ (maStep cost s price sig).cash ∧
      0 ≤ (maStep cost s price sig).shares := by
  have htr : 0 ≤ s.cash - s.cash * cost := by nlinarith
  cases sig with
  | false =>
    cases hpos : s.position with
    | false =>
      rw [maStep_hold cost s price false hpos.symm]
      exact ⟨hc, hs⟩
    | true =>
      rw [maStep_sell cost s price hpos]
      have hn : (0 : ℚ) ≤ (s.shares : ℚ) * price :=
        mul_nonneg (by exact_mod_cast hs) hp.le
      have hnc : (0 : ℚ) ≤ (s.shares : ℚ) * price * (1 - cost) :=
        mul_nonneg hn (by linarith)
      refine ⟨?_, le_rfl⟩
      dsimp only
      nlinarith
  | true =>
    cases hpos : s.position with
    | true =>
      rw [maStep_hold cost s price true hpos.symm]
      exact ⟨hc, hs⟩
    | false =>
      rw [maStep_buy cost s price hpos]
      split_ifs with hlt
      · have hq : (0 : ℚ) ≤ (s.cash - s.cash * cost) / price :=
          div_nonneg htr hp.le
        have hfl0 : (0 : ℤ) ≤ ⌊(s.cash - s.cash * cost) / price⌋ :=
          Int.floor_nonneg.mpr hq
        have hfl : (⌊(s.cash - s.cash * cost) / price⌋ : ℚ) * price ≤
            s.cash - s.cash * cost := by
          have h2 := mul_le_mul_of_nonneg_right
            (Int.floor_le ((s.cash - s.cash * cost) / price)) hp.le
          rwa [div_mul_cancel₀ _ hp.ne'] at h2
        refine ⟨?_, by simpa using hfl0⟩
        dsimp only
        linarith
      · have heq : s.cash - s.cash * cost = 0 :=
          le_antisymm (not_lt.mp hlt) htr
        refine ⟨?_, le_rfl⟩
        dsimp only
        rw [Int.cast_zero, zero_mul, sub_zero, heq]

lemma maStates_inv (cost : ℚ) (h0 : 0 ≤ cost) (h1 : cost ≤ 1) :
    ∀ (pairs : List (ℚ × Bool)) (s : MAState), 0 ≤ s.cash → 0 ≤ s.shares →
      (∀ pb ∈ pairs, 0 < pb.1) →
      ∀ t ∈ maStates cost s pairs, 0 ≤ t.cash ∧ 0 ≤ t.shares
  | [], _, _, _, _, t, ht => by simp [maStates] at ht
  | (p, sig) :: rest, s, hc, hs, hp, t, ht => by
    have hp0 : 0 < p := hp (p, sig) (List.mem_cons_self _ _)
    have hstep := maStep_nonneg cost h0 h1 s p sig hp0 hc hs
    simp only [maStates, List.mem_cons] at ht
    rcases ht with rfl | ht
    · exact hstep
    · exact maStates_inv cost h0 h1 rest _ hstep.1 hstep.2
        (fun pb hpb => hp pb (List.mem_cons_of_mem _ hpb)) t ht

lemma maSignals_price_pos (sW lW : ℕ) (closes : List ℚ)
    (hp : ∀ p ∈ closes, 0 < p) :
    ∀ pb ∈ maSignals sW lW closes, 0 < pb.1 := by
  intro pb hpb
  simp only [maSignals, List.mem_filterMap, List.mem_range] at hpb
  obtain ⟨i, hi, hmatch⟩ := hpb
  rcases h1 : rollingMean sW closes i with _ | sma
  · rw [h1] at hmatch
    exact absurd hmatch (by simp)
  rcases h2 : rollingMean lW closes i with _ | lma
  · rw [h1, h2] at hmatch
    exact absurd hmatch (by simp)
  rw [h1, h2] at hmatch
  simp only [Option.some.injEq] at hmatch
  rw [← hmatch]
  dsimp only
  rw [List.getD_eq_getElem closes 0 hi]
  exact hp _ (List.getElem_mem hi)

/-- C3: in the MA crossover simulator, a FLAT-to-INVESTED flip pays the
fee `cash * cost` on the deployed cash, buys `⌊(cash - fee)/price⌋`
shares and keeps `cash - fee - shares * price`; an INVESTED-to-FLAT flip
pays the fee on the notional `shares * price`, credits
`shares * price - fee` and zeroes the shares; an unchanged signal leaves
the state untouched. The `0 ≤ cash` hypothesis of the buy case is an
invariant: it holds at every bar of every run started from a
non-negative capital over positive prices, and the prices fed to the
loop are positive whenever all closes are. -/
theorem C3_ma_transitions (cost : ℚ) (h0 : 0 ≤ cost) (h1 : cost ≤ 1) :
    (∀ (s : MAState) (price : ℚ), 0 ≤ s.cash → s.position = false →
      maStep cost s price true =
        ⟨s.cash - s.cash * cost -
           ⌊(s.cash - s.cash * cost) / price⌋ * price,
         ⌊(s.cash - s.cash * cost) / price⌋, true⟩) ∧
    (∀ (s : MAState) (price : ℚ), s.position = true →
      maStep cost s price false =
        ⟨s.cash + s.shares * price - s.shares * price * cost, 0, false⟩) ∧
    (∀ (s : MAState) (price : ℚ) (sig : Bool), sig = s.position →
      maStep cost s price sig = s) ∧
    (∀ (cap : ℚ) (pairs : List (ℚ × Bool)), 0 ≤ cap →
      (∀ pb ∈ pairs, 0 < pb.1) →
      ∀ t ∈ maStates cost ⟨cap, 0, false⟩ pairs, 0 ≤ t.cash) ∧
    (∀ (sW lW : ℕ) (closes : List ℚ), (∀ p ∈ closes, 0 < p) →
      ∀ pb ∈ maSignals sW lW closes, 0 < pb.1) := by
  refine ⟨?_, maStep_sell cost, maStep_hold cost, ?_, maSignals_price_pos⟩
  · intro s price hc hpos
    have htr : 0 ≤ s.cash - s.cash * cost := by nlinarith
    rw [maStep_buy cost s price hpos]
    have hif : (if 0 < s.cash - s.cash * cost
        then ⌊(s.cash - s.cash * cost) / price⌋ else 0) =
        ⌊(s.cash - s.cash * cost) / price⌋ := by
      split_ifs with hlt
      · rfl
      · have heq : s.cash - s.cash * cost = 0 :=
          le_antisymm (not_lt.mp hlt) htr
        rw [heq]
        simp
    rw [hif]
  · intro cap pairs hcap hp t ht
    exact (maStates_inv cost h0 h1 pairs ⟨cap, 0, false⟩ hcap le_rfl hp t ht).1

/-- Witness for C3 at a concrete buy flip. -/
theorem C3_witness :
    maStep (1/100) ⟨1000, 0, false⟩ 20 true =
      ⟨1000 - 1000 * (1/100) - ⌊((1000 : ℚ) - 1000 * (1/100)) / 20⌋ * 20,
       ⌊((1000 : ℚ) - 1000 * (1/100)) / 20⌋, true⟩ :=
  (C3_ma_transitions (1/100) (by norm_num) (by norm_num)).1
    ⟨1000, 0, false⟩ 20 (by norm_num) rfl

/-! ## Lemmas about the volatility take-profit loop and final overwrite -/

lemma maRows_identity (c : ℚ) :
    ∀ (pairs : List (ℚ × Bool)) (s : MAState),
      ∀ r ∈ maRows c s pairs, r.value = r.cash + r.shares * r.price
  | [], _, r, hr => by simp [maRows] at hr
  | (p, sig) :: rest, s, r, hr => by
    simp only [maRows, List.mem_cons] at hr
    rcases hr with rfl | hr
    · rfl
    · exact maRows_identity c rest _ r hr

lemma volLoop_identity (vt tp : ℚ) (sl : Option ℚ) (c : ℚ) :
    ∀ (bars : List (ℚ × Option ℚ)) (s : VState),
      ∀ r ∈ (volLoop vt tp sl c s bars).1, r.value = r.cash + r.shares * r.price
  | [], _, r, hr => by simp [volLoop] at hr
  | (p, ret) :: rest, s, r, hr => by
    simp only [volLoop, List.mem_cons] at hr
    rcases hr with rfl | hr
    · rfl
    · exact volLoop_identity vt tp sl c rest _ r hr

lemma volLoop_getLast (vt tp : ℚ) (sl : Option ℚ) (c : ℚ) :
    ∀ (bars : List (ℚ × Option ℚ)) (s : VState) (lb : ℚ × Option ℚ),
      bars.getLast? = some lb →
      ∃ sig, (volLoop vt tp sl c s bars).1.getLast? =
        some ⟨lb.1, (volLoop vt tp sl c s bars).2.shares,
              (volLoop vt tp sl c s bars).2.cash,
              (volLoop vt tp sl c s bars).2.cash +
                (volLoop vt tp sl c s bars).2.shares * lb.1, sig⟩
  | [], _, lb, h => by simp at h
  | [(p, ret)], s, lb, h => by
    simp only [List.getLast?_singleton, Option.some.injEq] at h
    subst h
    exact ⟨(volStep vt tp sl c s p ret).2, rfl⟩
  | (p, ret) :: (p2, ret2) :: rest, s, lb, h => by
    rw [List.getLast?_cons_cons] at h
    obtain ⟨sig, hsig⟩ := volLoop_getLast vt tp sl c ((p2, ret2) :: rest)
      (volStep vt tp sl c s p ret).1 lb h
    refine ⟨sig, ?_⟩
    simp only [volLoop] at hsig ⊢
    rw [List.getLast?_cons_cons]
    exact hsig

lemma zip_pctFrom_getLast :
    ∀ (rest : List ℚ) (prev lp : ℚ), rest.getLast? = some lp →
      ∃ r, (rest.zip (pctChangesFrom prev rest)).getLast? = some (lp, r)
  | [], _, _, h => by simp at h
  | [p], prev, lp, h => by
    simp only [List.getLast?_singleton, Option.some.injEq] at h
    subst h
    exact ⟨_, rfl⟩
  | p :: p2 :: rest, prev, lp, h => by
    rw [List.getLast?_cons_cons] at h
    obtain ⟨r, hr⟩ := zip_pctFrom_getLast (p2 :: rest) p lp h
    refine ⟨r, ?_⟩
    simp only [pctChangesFrom, List.zip_cons_cons] at hr ⊢
    rw [List.getLast?_cons_cons]
    exact hr

lemma zip_pct_getLast :
    ∀ (closes : List ℚ) (lp : ℚ), closes.getLast? = some lp →
      ∃ r, (closes.zip (pctChanges closes)).getLast? = some (lp, r)
  | [], _, h => by simp at h
  | [p], lp, h => by
    simp only [List.getLast?_singleton, Option.some.injEq] at h
    subst h
    exact ⟨none, rfl⟩
  | p :: p2 :: rest, lp, h => by
    rw [List.getLast?_cons_cons] at h
    obtain ⟨r, hr⟩ := zip_pctFrom_getLast (p2 :: rest) p lp h
    refine ⟨r, ?_⟩
    simp only [pctChanges, pctChangesFrom, List.zip_cons_cons] at hr ⊢
    rw [List.getLast?_cons_cons]
    exact hr

lemma setLastValue_length :
    ∀ (l : List VRow) (v : ℚ), (setLastValue l v).length = l.length
  | [], _ => rfl
  | [_], _ => rfl
  | r :: r' :: rest, v => by
    simp only [setLastValue, List.length_cons]
    rw [setLastValue_length (r' :: rest) v]
    simp

lemma setLastValue_dropLast :
    ∀ (l : List VRow) (v : ℚ), (setLastValue l v).dropLast = l.dropLast
  | [], _ => rfl
  | [_], _ => rfl
  | r :: r' :: rest, v => by
    cases rest with
    | nil => simp [setLastValue]
    | cons r2 rest2 =>
      have h := setLastValue_dropLast (r' :: r2 :: rest2) v
      simp only [setLastValue] at h ⊢
      rw [List.dropLast_cons₂, List.dropLast_cons₂, h]

lemma setLastValue_getLast? :
    ∀ (l : List VRow) (v : ℚ),
      (setLastValue l v).getLast? = l.getLast?.map fun r => { r with value := v }
  | [], _ => rfl
  | [_], _ => rfl
  | r :: r' :: rest, v => by
    cases rest with
    | nil => simp [setLastValue]
    | cons r2 rest2 =>
      have h := setLastValue_getLast? (r' :: r2 :: rest2) v
      simp only [setLastValue] at h ⊢
      rw [List.getLast?_cons_cons, List.getLast?_cons_cons, h]

/-! ## Claim C4 -/

/-- C4: when the volatility take-profit loop ends still invested, the run
force-liquidates at the last close with the exit fee
`shares * price * cost`, and the returned trajectory is the loop's rows
with only the final row's `portfolio_value` overwritten by the
post-liquidation cash: same length, identical `dropLast`, and a last row
equal to the loop's last row except for its `value`. -/
theorem C4_forced_liquidation_frame (closes : List ℚ) (cap vt tp c : ℚ)
    (sl : Option ℚ) (rows : List VRow) (sEnd : VState) (h : closes ≠ [])
    (hloop : volLoop vt tp sl c ⟨cap, 0, none⟩
      (closes.zip (pctChanges closes)) = (rows, sEnd))
    (hinv : 0 < sEnd.shares) :
    run_volatility_tp closes cap vt tp sl c =
      .ok (setLastValue rows
        (sEnd.cash + sEnd.shares * closes.getLastD 0 -
          sEnd.shares * closes.getLastD 0 * c)) ∧
    (setLastValue rows
        (sEnd.cash + sEnd.shares * closes.getLastD 0 -
          sEnd.shares * closes.getLastD 0 * c)).dropLast = rows.dropLast ∧
    (setLastValue rows
        (sEnd.cash + sEnd.shares * closes.getLastD 0 -
          sEnd.shares * closes.getLastD 0 * c)).length = rows.length ∧
    (setLastValue rows
        (sEnd.cash + sEnd.shares * closes.getLastD 0 -
          sEnd.shares * closes.getLastD 0 * c)).getLast? =
      rows.getLast?.map fun r =>
        { r with value := sEnd.cash + sEnd.shares * closes.getLastD 0 -
            sEnd.shares * closes.getLastD 0 * c } := by
  refine ⟨?_, setLastValue_dropLast rows _, setLastValue_length rows _,
    setLastValue_getLast? rows _⟩
  simp only [run_volatility_tp, hloop]
  rw [if_neg (by simpa using h)]
  simp [hinv]

/-- Witness for C4 on a three-bar series that enters on the second bar
and is still invested at series end. -/
theorem C4_witness :
    run_volatility_tp [100, 106, 108] 1000 (1/20) (1/50) none (1/100) =
      .ok (setLastValue
        [⟨100, 0, 1000, 1000, false⟩, ⟨106, 9, 36, 990, true⟩,
         ⟨108, 9, 36, 1008, true⟩]
        ((⟨36, 9, some 106⟩ : VState).cash +
          (⟨36, 9, some 106⟩ : VState).shares *
            ([100, 106, 108] : List ℚ).getLastD 0 -
          (⟨36, 9, some 106⟩ : VState).shares *
            ([100, 106, 108] : List ℚ).getLastD 0 * (1/100))) :=
  (C4_forced_liquidation_frame [100, 106, 108] 1000 (1/20) (1/50) (1/100) none
    [⟨100, 0, 1000, 1000, false⟩, ⟨106, 9, 36, 990, true⟩,
     ⟨108, 9, 36, 1008, true⟩]
    ⟨36, 9, some 106⟩ (by simp)
    (by norm_num [volLoop, volStep, pctChanges, pctChangesFrom, abs])
    (by norm_num)).1

/-! ## Claim C1 -/

/-- C1 counterexample: with a 1% transaction cost, the volatility
take-profit run on closes 100, 106, 108 ends with a forced liquidation,
and its final trajectory row has `portfolio_value 998.28` while
`cash + shares * price = 36 + 9 * 108 = 1008`: the accounting identity
fails on that row by exactly the exit fee. -/
theorem C1_counterexample :
    run_volatility_tp [100, 106, 108] 1000 (1/20) (1/50) none (1/100) =
      .ok [⟨100, 0, 1000, 1000, false⟩, ⟨106, 9, 36, 990, true⟩,
           ⟨108, 9, 36, 24957/25, true⟩] ∧
    ¬ ((⟨108, 9, 36, 24957/25, true⟩ : VRow).value =
        (⟨108, 9, 36, 24957/25, true⟩ : VRow).cash +
          (⟨108, 9, 36, 24957/25, true⟩ : VRow).shares *
            (⟨108, 9, 36, 24957/25, true⟩ : VRow).price) := by
  constructor
  · norm_num [run_volatility_tp, pctChanges, pctChangesFrom, volLoop,
      volStep, setLastValue, abs]
  · norm_num

/-- C1 amended: the accounting identity
`portfolio_value = cash + shares * price` holds at every row of every Buy
& Hold and MA crossover trajectory and at every non-final row of every
volatility take-profit trajectory; the final volatility take-profit row
satisfies it up to the forced-liquidation exit fee
`shares * price * cost` (charged exactly when the run ends still holding
shares), so the identity holds there only when that fee is zero. -/
theorem C1_amended_accounting_identity :
    (∀ (closes : List ℚ) (cap cost : ℚ) (rows : List Row),
      run_buy_and_hold closes cap cost = .ok rows →
      ∀ r ∈ rows, r.value = r.cash + r.shares * r.price) ∧
    (∀ (sW lW : ℕ) (closes : List ℚ) (cap cost : ℚ) (rows : List Row),
      maAfterLoad sW lW closes cap cost = .ok rows →
      ∀ r ∈ rows, r.value = r.cash + r.shares * r.price) ∧
    (∀ (closes : List ℚ) (cap vt tp : ℚ) (sl : Option ℚ) (c : ℚ)
      (rows : List VRow),
      run_volatility_tp closes cap vt tp sl c = .ok rows →
      (∀ r ∈ rows.dropLast, r.value = r.cash + r.shares * r.price) ∧
      (∀ lr, rows.getLast? = some lr →
        lr.value = lr.cash + lr.shares * lr.price -
          (if 0 < lr.shares then lr.shares * lr.price * c else 0))) := by
  refine ⟨?_, ?_, ?_⟩
  · intro closes cap cost rows hrun r hr
    cases closes with
    | nil => simp [run_buy_and_hold] at hrun
    | cons p0 tail =>
      simp only [run_buy_and_hold] at hrun
      split_ifs at hrun with hsh
      simp only [Except.ok.injEq] at hrun
      subst hrun
      simp only [List.mem_map] at hr
      obtain ⟨p, hp, rfl⟩ := hr
      dsimp only
      ring
  · intro sW lW closes cap cost rows hrun r hr
    simp only [maAfterLoad] at hrun
    split_ifs at hrun with h1 h2
    simp only [Except.ok.injEq] at hrun
    subst hrun
    exact maRows_identity cost _ _ r hr
  · intro closes cap vt tp sl c rows hrun
    simp only [run_volatility_tp] at hrun
    split_ifs at hrun with hempty hliq
    · -- forced liquidation
      have hcl : closes ≠ [] := by
        intro hc
        rw [hc] at hempty
        exact hempty rfl
      simp only [Except.ok.injEq] at hrun
      subst hrun
      constructor
      · intro r hr
        rw [setLastValue_dropLast] at hr
        exact volLoop_identity vt tp sl c _ _ r (List.dropLast_subset _ hr)
      · intro lr hlr
        obtain ⟨rq, hrq⟩ :=
          zip_pct_getLast closes _ (List.getLast?_eq_getLast_of_ne_nil hcl)
        obtain ⟨sig, hsig⟩ := volLoop_getLast vt tp sl c _ ⟨cap, 0, none⟩ _ hrq
        rw [setLastValue_getLast?, hsig] at hlr
        simp only [Option.map_some', Option.some.injEq] at hlr
        subst hlr
        have hld : closes.getLastD 0 = closes.getLast hcl := by
          rw [List.getLastD_eq_getLast?, List.getLast?_eq_getLast_of_ne_nil hcl]
          rfl
        dsimp only
        rw [if_pos hliq, hld]
    · -- no liquidation at series end
      have hcl : closes ≠ [] := by
        intro hc
        rw [hc] at hempty
        exact hempty rfl
      simp only [Except.ok.injEq] at hrun
      subst hrun
      constructor
      · intro r hr
        exact volLoop_identity vt tp sl c _ _ r (List.dropLast_subset _ hr)
      · intro lr hlr
        obtain ⟨rq, hrq⟩ :=
          zip_pct_getLast closes _ (List.getLast?_eq_getLast_of_ne_nil hcl)
        obtain ⟨sig, hsig⟩ := volLoop_getLast vt tp sl c _ ⟨cap, 0, none⟩ _ hrq
        rw [hsig] at hlr
        simp only [Option.some.injEq] at hlr
        subst hlr
        dsimp only
        rw [if_neg hliq]
        ring

/-- Witness for C1: the identity at the first row of the Scenario A
Buy & Hold run. -/
theorem C1_witness :
    (⟨100, 10, 0, 1000⟩ : Row).value =
      (⟨100, 10, 0, 1000⟩ : Row).cash +
        (⟨100, 10, 0, 1000⟩ : Row).shares * (⟨100, 10, 0, 1000⟩ : Row).price :=
  C1_amended_accounting_identity.1 [100, 110, 90] 1000 0
    [⟨100, 10, 0, 1000⟩, ⟨110, 10, 0, 1100⟩, ⟨90, 10, 0, 900⟩]
    (by norm_num [run_buy_and_hold]) ⟨100, 10, 0, 1000⟩ (by simp)

/-! ## Claim C6 -/

/-- C6: for a non-empty trajectory the summary is produced without error;
`n_days` is the day difference between the last and first dates (0 for a
single-row trajectory); the annualized return is
`(1 + total_return) ^ (252 / n_days) - 1` when `n_days > 0` and the NaN
sentinel (`none`) when `n_days = 0`, in particular for a single row. -/
theorem C6_annualized_return (traj : List (ℤ × ℚ)) (cap : ℚ) (h : traj ≠ []) :
    ∃ s, summarize_performance traj cap = .ok s ∧
      s.totalReturn = (traj.map Prod.snd).getLastD 0 / cap - 1 ∧
      (0 < nDays traj →
        s.annualizedReturn =
          some (Real.rpow (1 + (s.totalReturn : ℝ)) (252 / (nDays traj : ℝ)) - 1)) ∧
      (nDays traj = 0 → s.annualizedReturn = none) ∧
      (1 < traj.length →
        nDays traj = (traj.getLastD (0, 0)).1 - (traj.headD (0, 0)).1) ∧
      (traj.length = 1 → s.annualizedReturn = none) := by
  unfold summarize_performance
  rw [if_neg (by simpa using h)]
  refine ⟨_, rfl, rfl, ?_, ?_, ?_, ?_⟩
  · intro hd
    dsimp only
    rw [if_pos hd]
  · intro hd
    dsimp only
    rw [if_neg (by omega)]
  · intro hlen
    unfold nDays
    rw [if_pos hlen]
  · intro hlen
    have hz : nDays traj = 0 := by
      unfold nDays
      rw [if_neg (by omega)]
    dsimp only
    rw [if_neg (by omega)]

/-- Witness for C6 on a two-row trajectory spanning seven calendar days. -/
theorem C6_witness :
    ∃ s, summarize_performance [((0 : ℤ), (1000 : ℚ)), (7, 1100)] 1000 =
        .ok s ∧
      s.totalReturn =
        (([((0 : ℤ), (1000 : ℚ)), (7, 1100)]).map Prod.snd).getLastD 0 /
          1000 - 1 ∧
      (0 < nDays [((0 : ℤ), (1000 : ℚ)), (7, 1100)] →
        s.annualizedReturn =
          some (Real.rpow (1 + (s.totalReturn : ℝ))
            (252 / (nDays [((0 : ℤ), (1000 : ℚ)), (7, 1100)] : ℝ)) - 1)) ∧
      (nDays [((0 : ℤ), (1000 : ℚ)), (7, 1100)] = 0 →
        s.annualizedReturn = none) ∧
      (1 < ([((0 : ℤ), (1000 : ℚ)), (7, 1100)]).length →
        nDays [((0 : ℤ), (1000 : ℚ)), (7, 1100)] =
          (([((0 : ℤ), (1000 : ℚ)), (7, 1100)]).getLastD (0, 0)).1 -
            (([((0 : ℤ), (1000 : ℚ)), (7, 1100)]).headD (0, 0)).1) ∧
      (([((0 : ℤ), (1000 : ℚ)), (7, 1100)]).length = 1 →
        s.annualizedReturn = none) :=
  C6_annualized_return [((0 : ℤ), (1000 : ℚ)), (7, 1100)] 1000 (by simp)

/-! ## Claim C7 -/

lemma leadNegRun_le : ∀ l : List ℚ, leadNegRun l ≤ longestNegRun l
  | [] => le_rfl
  | x :: xs => by
    simp only [leadNegRun, longestNegRun]
    exact le_max_left _ _

lemma foldr_max_init : ∀ (l : List ℕ) (a : ℕ), l.foldr max a = max a (l.foldr max 0)
  | [], a => by simp
  | x :: xs, a => by
    simp only [List.foldr_cons]
    rw [foldr_max_init xs a]
    exact max_left_comm x a (xs.foldr max 0)

lemma ddDurations_max : ∀ (l : List ℚ) (cur : ℕ) (durs : List ℕ),
    (ddDurations l cur durs).foldr max 0 =
      max (durs.foldr max 0) (max (cur + leadNegRun l) (longestNegRun l))
  | [], cur, durs => by
    simp only [ddDurations, leadNegRun, longestNegRun]
    split_ifs with hc
    · rw [List.foldr_append]
      simp only [List.foldr_cons, List.foldr_nil]
      rw [foldr_max_init durs (max cur 0)]
      omega
    · omega
  | dd :: rest, cur, durs => by
    simp only [ddDurations, leadNegRun, longestNegRun]
    split_ifs with hd hc
    · rw [ddDurations_max rest (cur + 1) durs]
      omega
    · rw [ddDurations_max rest 0 (durs ++ [cur]), List.foldr_append]
      simp only [List.foldr_cons, List.foldr_nil]
      rw [foldr_max_init durs (max cur 0)]
      have hlead := leadNegRun_le rest
      omega
    · rw [ddDurations_max rest 0 durs]
      have hlead := leadNegRun_le rest
      omega

lemma maxDrawdownDuration_eq (l : List ℚ) :
    maxDrawdownDuration l = longestNegRun l := by
  unfold maxDrawdownDuration
  rw [ddDurations_max l 0 []]
  have := leadNegRun_le l
  simp only [List.foldr_nil]
  omega

lemma leadNegRun_le_length : ∀ l : List ℚ, leadNegRun l ≤ l.length
  | [] => le_rfl
  | x :: xs => by
    simp only [leadNegRun, List.length_cons]
    split_ifs with hx
    · have := leadNegRun_le_length xs
      omega
    · omega

lemma take_leadNegRun_neg : ∀ (l : List ℚ), ∀ x ∈ l.take (leadNegRun l), x < 0
  | [] => by simp
  | y :: ys => by
    intro x hx
    by_cases hy : y < 0
    · rw [leadNegRun, if_pos hy, List.take_succ_cons] at hx
      rcases List.mem_cons.mp hx with rfl | hx'
      · exact hy
      · exact take_leadNegRun_neg ys x hx'
    · rw [leadNegRun, if_neg hy, List.take_zero] at hx
      exact absurd hx (List.not_mem_nil x)

lemma hasNegRun_longest : ∀ l : List ℚ, HasNegRun l (longestNegRun l)
  | [] => ⟨[], [], [], by simp, rfl, by simp⟩
  | x :: xs => by
    rcases le_or_lt (if x < 0 then leadNegRun xs + 1 else 0)
      (longestNegRun xs) with hle | hgt
    · have hmax : longestNegRun (x :: xs) = longestNegRun xs := by
        simp only [longestNegRun]
        omega
      obtain ⟨pre, mid, suf, heq, hlen, hneg⟩ := hasNegRun_longest xs
      exact ⟨x :: pre, mid, suf, by subst heq; simp,
        by rw [hlen, hmax], hneg⟩
    · by_cases hx : x < 0
      · rw [if_pos hx] at hgt
        have hmax : longestNegRun (x :: xs) = leadNegRun xs + 1 := by
          simp only [longestNegRun, if_pos hx]
          omega
        refine ⟨[], x :: xs.take (leadNegRun xs), xs.drop (leadNegRun xs),
          ?_, ?_, ?_⟩
        · simp [List.take_append_drop]
        · simp only [List.length_cons, List.length_take,
            min_eq_left (leadNegRun_le_length xs), hmax]
        · intro y hy
          rcases List.mem_cons.mp hy with rfl | hy'
          · exact hx
          · exact take_leadNegRun_neg xs y hy'
      · rw [if_neg hx] at hgt
        omega

lemma len_le_lead_of_all_neg :
    ∀ (mid suf : List ℚ), (∀ x ∈ mid, x < 0) →
      mid.length ≤ leadNegRun (mid ++ suf)
  | [], _, _ => by simp
  | m :: mid', suf, h => by
    have hm : m < 0 := h m (List.mem_cons_self m mid')
    simp only [List.cons_append, leadNegRun, if_pos hm, List.length_cons]
    exact Nat.succ_le_succ (len_le_lead_of_all_neg mid' suf
      (fun x hx => h x (List.mem_cons_of_mem _ hx)))

lemma hasNegRun_le_aux :
    ∀ (pre mid suf : List ℚ), (∀ x ∈ mid, x < 0) →
      mid.length ≤ longestNegRun (pre ++ mid ++ suf)
  | [], mid, suf, h => by
    rw [List.nil_append]
    exact le_trans (len_le_lead_of_all_neg mid suf h) (leadNegRun_le _)
  | p :: pre', mid, suf, h => by
    have ih := hasNegRun_le_aux pre' mid suf h
    rw [List.cons_append, List.cons_append]
    exact le_trans ih (le_trans (le_max_right _ _)
      (le_of_eq (longestNegRun.eq_def (p :: (pre' ++ mid ++ suf))).symm))

lemma hasNegRun_le (l : List ℚ) (k : ℕ) (h : HasNegRun l k) :
    k ≤ longestNegRun l := by
  obtain ⟨pre, mid, suf, rfl, rfl, hneg⟩ := h
  exact hasNegRun_le_aux pre mid suf hneg

/-- C7: for a non-empty trajectory, `max_drawdown_duration_days` is
exactly the length of the longest run of consecutive rows whose drawdown
`portfolio_value / running-max - 1` is strictly negative: the drawdown
series contains an all-negative run of that length, no longer
all-negative run exists (a drawdown of exactly 0 breaks a run, being
non-negative), and the metric is 0 when no drawdown is negative. -/
theorem C7_max_drawdown_duration (traj : List (ℤ × ℚ)) (cap : ℚ)
    (h : traj ≠ []) :
    ∃ s, summarize_performance traj cap = .ok s ∧
      HasNegRun (drawdowns (traj.map Prod.snd)) s.maxDrawdownDurationDays ∧
      (∀ k, HasNegRun (drawdowns (traj.map Prod.snd)) k →
        k ≤ s.maxDrawdownDurationDays) ∧
      ((∀ x ∈ drawdowns (traj.map Prod.snd), ¬x < 0) →
        s.maxDrawdownDurationDays = 0) := by
  unfold summarize_performance
  rw [if_neg (by simpa using h)]
  refine ⟨_, rfl, ?_, ?_, ?_⟩
  · dsimp only
    rw [maxDrawdownDuration_eq]
    exact hasNegRun_longest _
  · intro k hk
    dsimp only
    rw [maxDrawdownDuration_eq]
    exact hasNegRun_le _ k hk
  · intro hnone
    dsimp only
    rw [maxDrawdownDuration_eq]
    by_contra hne
    obtain ⟨pre, mid, suf, heq, hlen, hneg⟩ :=
      hasNegRun_longest (drawdowns (traj.map Prod.snd))
    cases mid with
    | nil => exact hne hlen.symm
    | cons m mid' =>
      refine hnone m ?_ (hneg m (List.mem_cons_self m mid'))
      rw [heq]
      simp

/-- Witness for C7 on a four-row trajectory with a two-row drawdown
spell. -/
theorem C7_witness :
    ∃ s, summarize_performance
        [((0 : ℤ), (100 : ℚ)), (1, 90), (2, 95), (3, 100)] 100 = .ok s ∧
      HasNegRun (drawdowns (([((0 : ℤ), (100 : ℚ)), (1, 90), (2, 95),
        (3, 100)]).map Prod.snd)) s.maxDrawdownDurationDays ∧
      (∀ k, HasNegRun (drawdowns (([((0 : ℤ), (100 : ℚ)), (1, 90), (2, 95),
        (3, 100)]).map Prod.snd)) k → k ≤ s.maxDrawdownDurationDays) ∧
      ((∀ x ∈ drawdowns (([((0 : ℤ), (100 : ℚ)), (1, 90), (2, 95),
        (3, 100)]).map Prod.snd), ¬x < 0) →
        s.maxDrawdownDurationDays = 0) :=
  C7_max_drawdown_duration [((0 : ℤ), (100 : ℚ)), (1, 90), (2, 95), (3, 100)]
    100 (by simp)
